import Mathlib

/-!
Shallow embedding of `src/commute_app.py` (school_distance_calculator):
the departure-time resolver `get_departure_timestamp` and the batched
query orchestrator `calculate_commute_times`, together with proofs of
the specified properties.

Conventions of the embedding:
* A naive Python `datetime` is modelled by `DateTime`: an epoch day
  number plus hour/minute/second/microsecond fields; comparison and
  `timestamp()` are linearizations of those fields.  A calendar date
  string `"%Y-%m-%d"` is modelled by its epoch day number (`Nat`).
* The wall clock (`datetime.now()`) is passed explicitly: the
  orchestrator receives `clock : Nat -> DateTime` giving the time
  observed while processing batch `i`.
* The Matrix Query capability (`requests.get` + `.json()`) is a
  function `QueryRequest -> Response`.
* Python dict rows are structures; the Korean dict keys of the source
  (이름 / 주소 / 거리 / 거리(m) / 소요시간 / 소요시간(분)) become the
  fields name / addr / dist / distM / dur / durMin.
* Out-of-range list indexing (Python `IndexError`) is modelled by
  `Except String`.
* Progress-bar fractions (Python floats `(batch_idx+1)/total_batches`)
  are modelled exactly as rationals.
-/

/-- A naive local datetime: epoch day number plus time-of-day fields,
mirroring Python `datetime`'s `day`/`hour`/`minute`/`second`/`microsecond`
granularity (the year/month/day triple is flattened into one day count). -/
structure DateTime where
  day : Nat
  hour : Nat
  minute : Nat
  second : Nat
  microsecond : Nat
deriving DecidableEq, Repr

namespace DateTime

/-- Total number of microseconds since the epoch; Python `datetime`
comparison (`dt <= now`) is comparison of these linearizations. -/
def toMicros (d : DateTime) : Nat :=
  (d.day * 86400 + d.hour * 3600 + d.minute * 60 + d.second) * 1000000
    + d.microsecond

/-- `int(dt.timestamp())`: whole seconds since the epoch (the model keeps
all times at or after the epoch, so truncation toward zero is floor). -/
def timestamp (d : DateTime) : Nat :=
  d.day * 86400 + d.hour * 3600 + d.minute * 60 + d.second

end DateTime

/-- `get_departure_timestamp(hour, minute=0, date=None)` of
`src/commute_app.py` lines 18-27, with `datetime.now()` passed in as
`now` and the parsed `"%Y-%m-%d"` date as an epoch day number.
When a date is given, `strptime` yields that date at `hour:minute:00`;
otherwise `now` has its hour/minute/second/microsecond replaced, and one
day is added when the result is `<= now`. -/
def get_departure_timestamp (hour : Nat) (minute : Nat) (date : Option Nat)
    (now : DateTime) : Nat :=
  match date with
  | some d =>
      DateTime.timestamp ⟨d, hour, minute, 0, 0⟩
  | none =>
      let dt : DateTime :=
        { now with
          hour := hour
          minute := minute
          second := 0
          microsecond := 0 }
      let dt := if dt.toMicros ≤ now.toMicros then { dt with day := dt.day + 1 }
                else dt
      dt.timestamp

/-- The departure-time resolver as worded by the specification: with a
date, combine it with `hour:minute:00` and return that exact timestamp;
without one, replace `now`'s hour/minute/second/sub-second fields by
`hour:minute:00.0` and, if the resulting timestamp is not strictly after
`now`, add exactly one calendar day; return integer seconds since the
epoch. -/
def resolveSpec (hour : Nat) (minute : Nat) (date : Option Nat)
    (now : DateTime) : Nat :=
  match date with
  | some d => DateTime.timestamp ⟨d, hour, minute, 0, 0⟩
  | none =>
      let candidate : DateTime := ⟨now.day, hour, minute, 0, 0⟩
      if candidate.toMicros > now.toMicros then candidate.timestamp
      else DateTime.timestamp ⟨now.day + 1, hour, minute, 0, 0⟩

/-- A student record (`{"이름": ..., "주소": ...}`). -/
structure Student where
  name : String
  addr : String
deriving DecidableEq, Repr

/-- One element of a Distance Matrix response row: `element["status"]`
and, when present, the distance/duration text and value fields. -/
structure Elem where
  status : String
  distText : String
  distValue : Int
  durText : String
  durValue : Int
deriving DecidableEq, Repr

/-- One row of the response (`data["rows"][j]`), holding its `elements`
list. -/
structure Row where
  elements : List Elem
deriving DecidableEq, Repr

/-- A decoded Distance Matrix response: `data["status"]`, the optional
`data["error_message"]`, and `data["rows"]`. -/
structure Response where
  status : String
  error_message : Option String
  rows : List Row
deriving DecidableEq, Repr

/-- The query parameters built for one batch (`params` dict of
lines 50-61): origins joined with `"|"`, destination, mode, language,
API key, and the optional resolved departure timestamp. -/
structure QueryRequest where
  origins : String
  destinations : String
  mode : String
  language : String
  key : String
  departure_time : Option Nat
deriving DecidableEq, Repr

/-- One row of the result table appended by the orchestrator
(the dicts of lines 75-82 and 85-92). -/
structure ResultRow where
  name : String
  addr : String
  dist : String
  distM : Option Int
  dur : String
  durMin : Option Int
deriving DecidableEq, Repr

/-- The scalar arguments of `calculate_commute_times` other than the
roster and the progress bar. -/
structure Config where
  school_address : String
  api_key : String
  mode : String
  departure_hour : Option Nat
  departure_minute : Nat
  departure_date : Option Nat
deriving DecidableEq, Repr

/-- Everything observable a run produces: the accumulated result rows,
the fractions passed to the progress bar, the diagnostics printed by
`st.error`, and the query requests submitted to the external capability
(one per executed batch, in order). -/
structure RunOutput where
  results : List ResultRow
  progress : List ℚ
  diagnostics : List String
  requests : List QueryRequest
deriving DecidableEq, Repr

/-- The fixed batch size of the orchestrator (line 43). -/
def batch_size : Nat := 25

/-- Fuel-indexed worker for the chunking loop; the fuel only bounds the
recursion depth and is always at least the list length when called from
`chunksSucc`, so the `0, l` branch is unreachable there. -/
def chunksGo (k : Nat) : Nat → List α → List (List α)
  | _, [] => []
  | 0, l => [l]
  | fuel + 1, x :: xs =>
      (x :: xs).take (k + 1) :: chunksGo k fuel ((x :: xs).drop (k + 1))

/-- `students[i:i+n]` slicing loop of line 46-47 for a positive chunk
size `k+1`: partition a list into contiguous chunks of size `k+1`, the
last chunk possibly shorter. -/
def chunksSucc (k : Nat) (l : List α) : List (List α) :=
  chunksGo k l.length l

/-- The batches of a roster: chunks of `batch_size = 25`. -/
def makeBatches (students : List Student) : List (List Student) :=
  chunksSucc 24 students

/-- `total_batches = (len(students) + batch_size - 1) // batch_size`
(line 44). -/
def totalBatches (students : List Student) : Nat :=
  (students.length + batch_size - 1) / batch_size

/-- The result row appended for `student` and `element` (lines 74-92):
a populated row when `element["status"] == "OK"`, otherwise an error row
with the Korean error marker `"오류: <status>"` in both text fields and
`None` in both numeric fields. -/
def mkRow (student : Student) (element : Elem) : ResultRow :=
  if element.status = "OK" then
    { name := student.name
      addr := student.addr
      dist := element.distText
      distM := some element.distValue
      dur := element.durText
      durMin := some (Int.fdiv element.durValue 60) }
  else
    { name := student.name
      addr := student.addr
      dist := "오류: " ++ element.status
      distM := none
      dur := "오류: " ++ element.status
      durMin := none }

/-- The inner loop of lines 70-92: `for j, row in enumerate(data["rows"])`
pairs response row `j` with `batch[j]` and reads `row["elements"][0]`.
Reading past the end of `batch`, or an empty `elements` list, is a
Python `IndexError`, modelled as `.error`. -/
def processRows : List Row → List Student → Except String (List ResultRow)
  | [], _ => .ok []
  | _ :: _, [] => .error "IndexError: batch[j] out of range"
  | r :: rs, s :: ss =>
      match r.elements.head? with
      | none => .error "IndexError: row elements empty"
      | some element =>
          match processRows rs ss with
          | .error e => .error e
          | .ok rest => .ok (mkRow s element :: rest)

/-- The `params` dict built for the batch at index `idx` (lines 50-61);
the departure timestamp is resolved here, inside the batch loop, reading
the clock at batch index `idx`. -/
def mkRequest (cfg : Config) (clock : Nat → DateTime) (idx : Nat)
    (batch : List Student) : QueryRequest :=
  { origins := String.intercalate "|" (batch.map (·.addr))
    destinations := cfg.school_address
    mode := cfg.mode
    language := "ko"
    key := cfg.api_key
    departure_time := cfg.departure_hour.map fun h =>
      get_departure_timestamp h cfg.departure_minute cfg.departure_date
        (clock idx) }

/-- The diagnostic string printed by `st.error` on a non-"OK" top-level
status (line 67). -/
def mkDiag (resp : Response) : String :=
  "API 오류: " ++ resp.status ++ " - " ++ resp.error_message.getD ""

/-- The batch loop of lines 46-95, recursing over the remaining batches
with the current `batch_idx`.  A non-"OK" top-level status records a
diagnostic and `continue`s — skipping both the element loop and the
progress-bar update.  An "OK" status runs the element loop and then,
when a progress bar was supplied, reports `(batch_idx+1)/total_batches`. -/
def runLoop (q : QueryRequest → Response) (cfg : Config)
    (clock : Nat → DateTime) (hasProgress : Bool) (total : Nat) :
    Nat → List (List Student) → Except String RunOutput
  | _, [] => .ok ⟨[], [], [], []⟩
  | idx, batch :: rest =>
      let req := mkRequest cfg clock idx batch
      let resp := q req
      if resp.status ≠ "OK" then
        match runLoop q cfg clock hasProgress total (idx + 1) rest with
        | .error e => .error e
        | .ok o =>
            .ok { o with
                  diagnostics := mkDiag resp :: o.diagnostics
                  requests := req :: o.requests }
      else
        match processRows resp.rows batch with
        | .error e => .error e
        | .ok rows =>
            match runLoop q cfg clock hasProgress total (idx + 1) rest with
            | .error e => .error e
            | .ok o =>
                .ok { results := rows ++ o.results
                      progress :=
                        (if hasProgress
                         then [((idx + 1 : ℚ)) / (total : ℚ)] else [])
                          ++ o.progress
                      diagnostics := o.diagnostics
                      requests := req :: o.requests }

/-- `calculate_commute_times` (lines 30-97): partition the roster into
batches of 25 and drive the batch loop from index 0. -/
def calculate_commute_times (q : QueryRequest → Response)
    (students : List Student) (cfg : Config) (clock : Nat → DateTime)
    (hasProgress : Bool) : Except String RunOutput :=
  runLoop q cfg clock hasProgress (totalBatches students) 0
    (makeBatches students)

/-! ### Chunking lemmas -/

theorem chunksGo_nil (k fuel : Nat) : chunksGo k fuel ([] : List α) = [] := by
  cases fuel <;> rfl

theorem chunksGo_congr (k : Nat) :
    ∀ f₁ f₂ (l : List α), l.length ≤ f₁ → l.length ≤ f₂ →
      chunksGo k f₁ l = chunksGo k f₂ l := by
  intro f₁
  induction f₁ with
  | zero =>
      intro f₂ l h₁ _
      have hl : l = [] := List.eq_nil_of_length_eq_zero (Nat.le_zero.mp h₁)
      subst hl
      simp [chunksGo_nil]
  | succ g ih =>
      intro f₂ l h₁ h₂
      cases l with
      | nil => simp [chunksGo_nil]
      | cons x xs =>
          cases f₂ with
          | zero => simp at h₂
          | succ g₂ =>
              show (x :: xs).take (k + 1) :: chunksGo k g ((x :: xs).drop (k + 1))
                   = (x :: xs).take (k + 1) :: chunksGo k g₂ ((x :: xs).drop (k + 1))
              congr 1
              apply ih
              · rw [List.length_drop]
                rw [List.length_cons] at h₁ ⊢
                omega
              · rw [List.length_drop]
                rw [List.length_cons] at h₂ ⊢
                omega

theorem chunksSucc_nil (k : Nat) : chunksSucc k ([] : List α) = [] := rfl

theorem chunksSucc_cons (k : Nat) (x : α) (xs : List α) :
    chunksSucc k (x :: xs) =
      (x :: xs).take (k + 1) :: chunksSucc k ((x :: xs).drop (k + 1)) := by
  show (x :: xs).take (k + 1) :: chunksGo k xs.length ((x :: xs).drop (k + 1)) = _
  unfold chunksSucc
  congr 1
  apply chunksGo_congr
  · rw [List.length_drop, List.length_cons]
    omega
  · exact le_refl _

theorem chunksSucc_of_ne_nil (k : Nat) (l : List α) (h : l ≠ []) :
    chunksSucc k l = l.take (k + 1) :: chunksSucc k (l.drop (k + 1)) := by
  cases l with
  | nil => exact absurd rfl h
  | cons x xs => exact chunksSucc_cons k x xs

theorem chunksSucc_flatten (k : Nat) : ∀ l : List α, (chunksSucc k l).flatten = l
  | [] => by simp [chunksSucc_nil]
  | x :: xs => by
      rw [chunksSucc_cons, List.flatten_cons,
          chunksSucc_flatten k ((x :: xs).drop (k + 1)), List.take_append_drop]
termination_by l => l.length
decreasing_by rw [List.length_drop, List.length_cons]; omega

theorem chunksSucc_mem_length (k : Nat) :
    ∀ (l : List α) (b : List α), b ∈ chunksSucc k l → b ≠ [] ∧ b.length ≤ k + 1
  | [], b => by simp [chunksSucc_nil]
  | x :: xs, b => by
      rw [chunksSucc_cons]
      intro hb
      rcases List.mem_cons.mp hb with h | h
      · subst h
        constructor
        · simp
        · simp
      · exact chunksSucc_mem_length k ((x :: xs).drop (k + 1)) b h
termination_by l => l.length
decreasing_by rw [List.length_drop, List.length_cons]; omega

theorem chunksSucc_dropLast_length (k : Nat) :
    ∀ (l : List α) (b : List α), b ∈ (chunksSucc k l).dropLast → b.length = k + 1
  | [], b => by simp [chunksSucc_nil]
  | x :: xs, b => by
      rw [chunksSucc_cons]
      intro hb
      cases hrest : chunksSucc k ((x :: xs).drop (k + 1)) with
      | nil => rw [hrest] at hb; simp at hb
      | cons c cs =>
          rw [hrest, List.dropLast_cons_of_ne_nil (by simp)] at hb
          rcases List.mem_cons.mp hb with h | h
          · subst h
            have hdrop : (x :: xs).drop (k + 1) ≠ [] := by
              intro hnil
              rw [hnil, chunksSucc_nil] at hrest
              exact List.noConfusion hrest
            rw [List.length_take, List.length_cons]
            have := List.length_pos.mpr hdrop
            rw [List.length_drop, List.length_cons] at this
            omega
          · exact chunksSucc_dropLast_length k ((x :: xs).drop (k + 1)) b
              (by rw [hrest]; exact h)
termination_by l => l.length
decreasing_by rw [List.length_drop, List.length_cons]; omega

theorem chunks25_length :
    ∀ l : List α, (chunksSucc 24 l).length = (l.length + 24) / 25
  | [] => by simp [chunksSucc_nil]
  | x :: xs => by
      rw [chunksSucc_cons, List.length_cons,
          chunks25_length ((x :: xs).drop 25)]
      rw [List.length_drop, List.length_cons]
      omega
termination_by l => l.length
decreasing_by rw [List.length_drop, List.length_cons]; omega

/-- `chunksSucc 24` unfolding with the batch size written as the
literal 25. -/
theorem chunks25_of_ne_nil (l : List α) (h : l ≠ []) :
    chunksSucc 24 l = l.take 25 :: chunksSucc 24 (l.drop 25) :=
  chunksSucc_of_ne_nil 24 l h

/-- **C6**: the orchestrator partitions the roster into contiguous,
order-preserving batches of at most 25 students each (every batch
nonempty, all batches except possibly the last of size exactly 25),
whose in-order concatenation reproduces the original student list
exactly; in particular a 60-student roster yields batches of sizes
[25, 25, 10]. -/
theorem batch_partition_exact (l : List Student) :
    (makeBatches l).flatten = l ∧
    (∀ b ∈ makeBatches l, b ≠ [] ∧ b.length ≤ 25) ∧
    (∀ b ∈ (makeBatches l).dropLast, b.length = 25) ∧
    (l.length = 60 → (makeBatches l).map List.length = [25, 25, 10]) := by
  refine ⟨chunksSucc_flatten 24 l, ?_, ?_, ?_⟩
  · intro b hb
    exact chunksSucc_mem_length 24 l b hb
  · intro b hb
    exact chunksSucc_dropLast_length 24 l b hb
  · intro h
    have h1 : l ≠ [] := by
      intro hn
      rw [hn] at h
      simp at h
    rw [makeBatches, chunks25_of_ne_nil l h1]
    have hd25 : (l.drop 25).length = 35 := by
      rw [List.length_drop, h]
    have h2 : l.drop 25 ≠ [] := by
      intro hn
      rw [hn] at hd25
      simp at hd25
    rw [chunks25_of_ne_nil _ h2]
    have hd50 : ((l.drop 25).drop 25).length = 10 := by
      rw [List.length_drop, hd25]
    have h3 : (l.drop 25).drop 25 ≠ [] := by
      intro hn
      rw [hn] at hd50
      simp at hd50
    rw [chunks25_of_ne_nil _ h3]
    have hd75 : ((l.drop 25).drop 25).drop 25 = [] := by
      apply List.eq_nil_of_length_eq_zero
      rw [List.length_drop, hd50]
    rw [hd75, chunksSucc_nil]
    simp [List.length_take, h, hd25, hd50]

/-- Witness for C6 at a concrete 60-student roster. -/
theorem batch_partition_exact_witness :
    (makeBatches (List.replicate 60 ⟨"김철수", "서울시 강남구"⟩)).map
        List.length = [25, 25, 10] :=
  (batch_partition_exact _).2.2.2 (by simp)

/-- **C7**: for every hour in 0-23 and minute in 0-59 the resolver with
no date replaces the current time's hour/minute/second/sub-second fields
by hour:minute:00.0 and rolls forward exactly one calendar day when the
result is not strictly after now (the behaviour described word for word
by `resolveSpec`); `resolve(8, 0)` at 09:00 yields tomorrow 08:00 and at
07:00 yields today 08:00; with a date it returns exactly that date
combined with hour:minute:00, with no future adjustment. -/
theorem departure_resolution (hour minute : Nat)
    (hh : hour < 24) (hm : minute < 60) :
    (∀ date now, get_departure_timestamp hour minute date now
        = resolveSpec hour minute date now) ∧
    (∀ d, get_departure_timestamp 8 0 none ⟨d, 9, 0, 0, 0⟩
        = DateTime.timestamp ⟨d + 1, 8, 0, 0, 0⟩) ∧
    (∀ d, get_departure_timestamp 8 0 none ⟨d, 7, 0, 0, 0⟩
        = DateTime.timestamp ⟨d, 8, 0, 0, 0⟩) ∧
    (∀ d now, get_departure_timestamp hour minute (some d) now
        = d * 86400 + hour * 3600 + minute * 60) := by
  refine ⟨?_, ?_, ?_, ?_⟩
  · intro date now
    cases date with
    | some d => rfl
    | none =>
        simp only [get_departure_timestamp, resolveSpec, DateTime.toMicros,
          DateTime.timestamp]
        split_ifs <;> simp_all
        omega
  · intro d
    simp only [get_departure_timestamp, DateTime.toMicros, DateTime.timestamp]
    rw [if_pos (by omega)]
  · intro d
    simp only [get_departure_timestamp, DateTime.toMicros, DateTime.timestamp]
    rw [if_neg (by omega)]
  · intro d now
    simp [get_departure_timestamp, DateTime.timestamp]

/-- Witness for C7: the roll-forward example evaluated at epoch day
19723 (2024-01-01), i.e. `resolve(8, 0)` at 2024-01-01T09:00:00 gives
2024-01-02T08:00:00. -/
theorem departure_resolution_witness :
    get_departure_timestamp 8 0 none ⟨19723, 9, 0, 0, 0⟩
      = DateTime.timestamp ⟨19724, 8, 0, 0, 0⟩ :=
  (departure_resolution 8 0 (by decide) (by decide)).2.1 19723

/-- **C8**: a successful element's result row carries
`duration seconds // 60` (floor division) in the duration-minutes field;
119 seconds give 1 minute, 120 seconds give 2 minutes. -/
theorem duration_minutes_floor (student : Student) (element : Elem)
    (hok : element.status = "OK") :
    (mkRow student element).durMin = some (Int.fdiv element.durValue 60) ∧
    (element.durValue = 119 → (mkRow student element).durMin = some 1) ∧
    (element.durValue = 120 → (mkRow student element).durMin = some 2) := by
  refine ⟨?_, ?_, ?_⟩
  · simp [mkRow, hok]
  · intro h
    simp [mkRow, hok, h]
  · intro h
    simp [mkRow, hok, h]

/-- Witness for C8: a 119-second element yields 1 minute. -/
theorem duration_minutes_floor_witness :
    (mkRow ⟨"김철수", "서울시 강남구"⟩
        ⟨"OK", "1.0 km", 1000, "2분", 119⟩).durMin = some 1 :=
  (duration_minutes_floor ⟨"김철수", "서울시 강남구"⟩
      ⟨"OK", "1.0 km", 1000, "2분", 119⟩ rfl).2.1 rfl

/-! ### Element-loop lemmas -/

theorem processRows_nil (batch : List Student) :
    processRows [] batch = .ok [] := by
  cases batch <;> rfl

theorem processRows_ok_length (rows : List Row) :
    ∀ (batch : List Student) (res : List ResultRow),
      processRows rows batch = .ok res → res.length = rows.length := by
  induction rows with
  | nil =>
      intro batch res h
      rw [processRows_nil] at h
      simp at h
      simp [← h]
  | cons r0 rs ih =>
      intro batch res h
      cases batch with
      | nil => simp [processRows] at h
      | cons s0 ss =>
          simp only [processRows] at h
          cases hhead : r0.elements.head? with
          | none => rw [hhead] at h; simp at h
          | some e0 =>
              rw [hhead] at h
              cases hrec : processRows rs ss with
              | error msg => rw [hrec] at h; simp at h
              | ok rest =>
                  rw [hrec] at h
                  simp at h
                  subst h
                  simp [ih ss rest hrec]

theorem processRows_ok_get (rows : List Row) :
    ∀ (batch : List Student) (res : List ResultRow),
      processRows rows batch = .ok res →
      ∀ (j : Nat) (r : Row) (s : Student),
        rows[j]? = some r → batch[j]? = some s →
        ∃ e, r.elements.head? = some e ∧ res[j]? = some (mkRow s e) := by
  induction rows with
  | nil =>
      intro batch res h j r s hr hs
      simp at hr
  | cons r0 rs ih =>
      intro batch res h j r s hr hs
      cases batch with
      | nil => simp [processRows] at h
      | cons s0 ss =>
          simp only [processRows] at h
          cases hhead : r0.elements.head? with
          | none => rw [hhead] at h; simp at h
          | some e0 =>
              rw [hhead] at h
              cases hrec : processRows rs ss with
              | error msg => rw [hrec] at h; simp at h
              | ok rest =>
                  rw [hrec] at h
                  simp at h
                  subst h
                  cases j with
                  | zero =>
                      simp at hr hs
                      subst hr
                      subst hs
                      exact ⟨e0, hhead, by simp⟩
                  | succ jj =>
                      simp at hr hs
                      obtain ⟨e, he, hres⟩ := ih ss rest hrec jj r s hr hs
                      exact ⟨e, he, by simpa using hres⟩

theorem processRows_total (rows : List Row) :
    ∀ batch : List Student, rows.length ≤ batch.length →
      (∀ r ∈ rows, r.elements ≠ []) →
      ∃ res, processRows rows batch = .ok res := by
  induction rows with
  | nil =>
      intro batch _ _
      exact ⟨[], processRows_nil batch⟩
  | cons r0 rs ih =>
      intro batch hlen helem
      cases batch with
      | nil => simp at hlen
      | cons s0 ss =>
          have hne : r0.elements ≠ [] := helem r0 (by simp)
          cases hhead : r0.elements.head? with
          | none =>
              rw [List.head?_eq_none_iff] at hhead
              exact absurd hhead hne
          | some e0 =>
              obtain ⟨rest, hrest⟩ :=
                ih ss (by simp at hlen ⊢; omega)
                  (fun r hr => helem r (by simp [hr]))
              exact ⟨mkRow s0 e0 :: rest,
                by simp only [processRows]; rw [hhead, hrest]⟩

theorem processRows_overflow (rows : List Row) :
    ∀ batch : List Student, batch.length < rows.length →
      ∃ msg, processRows rows batch = .error msg := by
  induction rows with
  | nil =>
      intro batch h
      simp at h
  | cons r0 rs ih =>
      intro batch h
      cases batch with
      | nil => exact ⟨_, rfl⟩
      | cons s0 ss =>
          cases hhead : r0.elements.head? with
          | none => exact ⟨_, by simp only [processRows]; rw [hhead]⟩
          | some e0 =>
              obtain ⟨msg, hmsg⟩ := ih ss (by simp at h ⊢; omega)
              exact ⟨msg, by simp only [processRows]; rw [hhead, hmsg]⟩

/-- **C5**: inside an "OK" batch, an element whose status is not "OK"
still produces exactly one result row at its own position: the student's
name and address are preserved, both text fields carry the error marker
string tagged with the element status, and both numeric fields are null;
the student is never dropped. -/
theorem element_failure_row_preserved (rows : List Row)
    (batch : List Student) (res : List ResultRow) (j : Nat) (r : Row)
    (s : Student) (e : Elem) (hrun : processRows rows batch = .ok res)
    (hr : rows[j]? = some r) (he : r.elements.head? = some e)
    (hs : batch[j]? = some s) (hfail : e.status ≠ "OK") :
    res[j]? = some
      { name := s.name
        addr := s.addr
        dist := "오류: " ++ e.status
        distM := none
        dur := "오류: " ++ e.status
        durMin := none } := by
  obtain ⟨e2, he2, hres⟩ := processRows_ok_get rows batch res hrun j r s hr hs
  rw [he] at he2
  injection he2 with he2
  subst he2
  rw [hres, mkRow, if_neg hfail]

/-- Witness for C5: a single NOT_FOUND element keeps its student in the
result with error-marked text fields and null numeric fields. -/
theorem element_failure_row_preserved_witness :
    ([mkRow ⟨"김철수", "주소1"⟩ ⟨"NOT_FOUND", "", 0, "", 0⟩] :
        List ResultRow)[0]? = some
      { name := "김철수"
        addr := "주소1"
        dist := "오류: NOT_FOUND"
        distM := none
        dur := "오류: NOT_FOUND"
        durMin := none } :=
  element_failure_row_preserved [⟨[⟨"NOT_FOUND", "", 0, "", 0⟩]⟩]
    [⟨"김철수", "주소1"⟩] [mkRow ⟨"김철수", "주소1"⟩ ⟨"NOT_FOUND", "", 0, "", 0⟩]
    0 ⟨[⟨"NOT_FOUND", "", 0, "", 0⟩]⟩ ⟨"김철수", "주소1"⟩
    ⟨"NOT_FOUND", "", 0, "", 0⟩ rfl rfl rfl rfl (by decide)

/-- **C10**: per-origin matching inside an "OK" batch is purely
positional (response row j is paired with student j and only element 0
of the row is read): when the response has at most as many rows as the
batch has origins (and each row carries an element), the element loop
is total and pairs positionally, with fewer rows leaving the trailing
students without any result row; when the response has more rows than
the batch, the loop hits an out-of-range access of the batch. -/
theorem positional_matching_safety (rows : List Row)
    (batch : List Student) (hlen : rows.length ≤ batch.length)
    (helems : ∀ r ∈ rows, r.elements ≠ []) :
    (∃ res, processRows rows batch = .ok res ∧
      res.length = rows.length ∧
      ∀ (j : Nat) (r : Row) (s : Student),
        rows[j]? = some r → batch[j]? = some s →
        ∃ e, r.elements.head? = some e ∧ res[j]? = some (mkRow s e)) ∧
    (∀ rows2 : List Row, batch.length < rows2.length →
      ∃ msg, processRows rows2 batch = .error msg) := by
  constructor
  · obtain ⟨res, hres⟩ := processRows_total rows batch hlen helems
    exact ⟨res, hres, processRows_ok_length rows batch res hres,
      processRows_ok_get rows batch res hres⟩
  · intro rows2 h2
    exact processRows_overflow rows2 batch h2

/-- Witness for C10: one row against a two-student batch succeeds and
pairs positionally (the second student gets no row), while three rows
against the same batch raise the out-of-range error. -/
theorem positional_matching_safety_witness :
    ∃ res, processRows [⟨[⟨"OK", "1km", 1000, "17분", 1020⟩]⟩]
        [⟨"김철수", "주소1"⟩, ⟨"이영희", "주소2"⟩] = .ok res ∧
      res.length = 1 ∧
      ∀ (j : Nat) (r : Row) (s : Student),
        ([⟨[⟨"OK", "1km", 1000, "17분", 1020⟩]⟩] : List Row)[j]? = some r →
        ([⟨"김철수", "주소1"⟩, ⟨"이영희", "주소2"⟩] : List Student)[j]? = some s →
        ∃ e, r.elements.head? = some e ∧ res[j]? = some (mkRow s e) :=
  (positional_matching_safety [⟨[⟨"OK", "1km", 1000, "17분", 1020⟩]⟩]
    [⟨"김철수", "주소1"⟩, ⟨"이영희", "주소2"⟩] (by decide)
    (by intro r hr; simp at hr; subst hr; simp)).1

/-! ### Batch-loop observables -/

/-- The response the external capability returns for the batch at index
`idx`. -/
def respAt (q : QueryRequest → Response) (cfg : Config)
    (clock : Nat → DateTime) (idx : Nat) (batch : List Student) :
    Response :=
  q (mkRequest cfg clock idx batch)

/-- Indices of the batches whose top-level status is "OK", in order. -/
def okIdxs (q : QueryRequest → Response) (cfg : Config)
    (clock : Nat → DateTime) : Nat → List (List Student) → List Nat
  | _, [] => []
  | idx, b :: rest =>
      if (respAt q cfg clock idx b).status = "OK"
      then idx :: okIdxs q cfg clock (idx + 1) rest
      else okIdxs q cfg clock (idx + 1) rest

/-- The diagnostics the loop records: one per failed batch, in order. -/
def diagsOf (q : QueryRequest → Response) (cfg : Config)
    (clock : Nat → DateTime) : Nat → List (List Student) → List String
  | _, [] => []
  | idx, b :: rest =>
      if (respAt q cfg clock idx b).status = "OK"
      then diagsOf q cfg clock (idx + 1) rest
      else mkDiag (respAt q cfg clock idx b) ::
        diagsOf q cfg clock (idx + 1) rest

/-- The number of students contained in the "OK" batches: failed batches
contribute zero. -/
def okLenSum (q : QueryRequest → Response) (cfg : Config)
    (clock : Nat → DateTime) : Nat → List (List Student) → Nat
  | _, [] => 0
  | idx, b :: rest =>
      (if (respAt q cfg clock idx b).status = "OK" then b.length else 0)
        + okLenSum q cfg clock (idx + 1) rest

/-- The request built for each batch, in order: the loop submits exactly
one query per batch, unconditionally. -/
def requestsOf (cfg : Config) (clock : Nat → DateTime) :
    Nat → List (List Student) → List QueryRequest
  | _, [] => []
  | idx, b :: rest =>
      mkRequest cfg clock idx b :: requestsOf cfg clock (idx + 1) rest

/-- The Matrix Query capability contract on the remaining batches: every
"OK" response has one row per origin of its batch and each row carries
at least its element 0. -/
def Conformant (q : QueryRequest → Response) (cfg : Config)
    (clock : Nat → DateTime) : Nat → List (List Student) → Prop
  | _, [] => True
  | idx, b :: rest =>
      ((respAt q cfg clock idx b).status = "OK" →
        (respAt q cfg clock idx b).rows.length = b.length ∧
        ∀ r ∈ (respAt q cfg clock idx b).rows, r.elements ≠ []) ∧
      Conformant q cfg clock (idx + 1) rest

/-- Every remaining batch's response has top-level status "OK". -/
def AllOk (q : QueryRequest → Response) (cfg : Config)
    (clock : Nat → DateTime) : Nat → List (List Student) → Prop
  | _, [] => True
  | idx, b :: rest =>
      (respAt q cfg clock idx b).status = "OK" ∧
      AllOk q cfg clock (idx + 1) rest

/-- Characterization of a conformant run of the batch loop: it never
raises, and its four observables are the mirrors defined above. -/
theorem runLoop_ok (q : QueryRequest → Response) (cfg : Config)
    (clock : Nat → DateTime) (hasProgress : Bool) (total : Nat)
    (bs : List (List Student)) :
    ∀ idx : Nat, Conformant q cfg clock idx bs →
      ∃ out, runLoop q cfg clock hasProgress total idx bs = .ok out ∧
        out.results.length = okLenSum q cfg clock idx bs ∧
        out.progress = (if hasProgress then
            (okIdxs q cfg clock idx bs).map
              (fun i : Nat => ((i : ℚ) + 1) / (total : ℚ))
          else []) ∧
        out.diagnostics = diagsOf q cfg clock idx bs ∧
        out.requests = requestsOf cfg clock idx bs := by
  induction bs with
  | nil =>
      intro idx _
      refine ⟨⟨[], [], [], []⟩, rfl, rfl, ?_, rfl, rfl⟩
      simp [okIdxs]
  | cons b rest ih =>
      intro idx hconf
      obtain ⟨hhead, htail⟩ := hconf
      obtain ⟨o, ho, hlen, hprog, hdiag, hreq⟩ := ih (idx + 1) htail
      by_cases hok : (respAt q cfg clock idx b).status = "OK"
      · obtain ⟨hrows, helems⟩ := hhead hok
        obtain ⟨rows, hrowsok⟩ :=
          processRows_total _ b (le_of_eq hrows) helems
        refine ⟨⟨rows ++ o.results,
            (if hasProgress
             then [((idx + 1 : ℚ)) / (total : ℚ)] else []) ++ o.progress,
            o.diagnostics, mkRequest cfg clock idx b :: o.requests⟩,
          ?_, ?_, ?_, ?_, ?_⟩
        · have hok2 : (q (mkRequest cfg clock idx b)).status = "OK" := hok
          have hrowsok2 :
              processRows (q (mkRequest cfg clock idx b)).rows b
                = .ok rows := hrowsok
          simp only [runLoop]
          rw [if_neg (not_not_intro hok2), hrowsok2, ho]
        · simp only [List.length_append, okLenSum, if_pos hok]
          rw [hlen, processRows_ok_length _ b rows hrowsok, hrows]
        · simp only [okIdxs, if_pos hok, hprog]
          cases hasProgress <;> simp
        · simp only [diagsOf, if_pos hok, hdiag]
        · simp only [requestsOf, hreq]
      · refine ⟨⟨o.results, o.progress,
            mkDiag (respAt q cfg clock idx b) :: o.diagnostics,
            mkRequest cfg clock idx b :: o.requests⟩, ?_, ?_, ?_, ?_, ?_⟩
        · have hok2 : (q (mkRequest cfg clock idx b)).status ≠ "OK" := hok
          simp only [runLoop]
          rw [if_pos hok2, ho]
          rfl
        · simp only [okLenSum, if_neg hok]
          simpa using hlen
        · simp only [okIdxs, if_neg hok]
          exact hprog
        · simp only [diagsOf, if_neg hok, hdiag]
        · simp only [requestsOf, hreq]

theorem okLenSum_le (q : QueryRequest → Response) (cfg : Config)
    (clock : Nat → DateTime) :
    ∀ (bs : List (List Student)) (idx : Nat),
      okLenSum q cfg clock idx bs ≤ (bs.map List.length).sum := by
  intro bs
  induction bs with
  | nil => intro idx; simp [okLenSum]
  | cons b rest ih =>
      intro idx
      have := ih (idx + 1)
      simp only [okLenSum, List.map_cons, List.sum_cons]
      split_ifs <;> omega

theorem okLenSum_eq_iff (q : QueryRequest → Response) (cfg : Config)
    (clock : Nat → DateTime) :
    ∀ (bs : List (List Student)) (idx : Nat), (∀ b ∈ bs, b ≠ []) →
      (okLenSum q cfg clock idx bs = (bs.map List.length).sum ↔
        AllOk q cfg clock idx bs) := by
  intro bs
  induction bs with
  | nil => intro idx _; simp [okLenSum, AllOk]
  | cons b rest ih =>
      intro idx hne
      have hb : b ≠ [] := hne b (by simp)
      have hbpos : 0 < b.length := List.length_pos.mpr hb
      have hrest := ih (idx + 1) (fun x hx => hne x (by simp [hx]))
      have hle := okLenSum_le q cfg clock rest (idx + 1)
      simp only [okLenSum, AllOk, List.map_cons, List.sum_cons]
      split_ifs with hok
      · rw [add_right_inj]
        simp [hok, hrest]
      · simp only [Nat.zero_add]
        constructor
        · intro h
          omega
        · intro h
          exact absurd h.1 hok

theorem okIdxs_mem_bounds (q : QueryRequest → Response) (cfg : Config)
    (clock : Nat → DateTime) :
    ∀ (bs : List (List Student)) (idx i : Nat),
      i ∈ okIdxs q cfg clock idx bs → idx ≤ i ∧ i < idx + bs.length := by
  intro bs
  induction bs with
  | nil => intro idx i h; simp [okIdxs] at h
  | cons b rest ih =>
      intro idx i h
      simp only [okIdxs] at h
      split_ifs at h with hok
      · rcases List.mem_cons.mp h with h | h
        · subst h
          simp only [List.length_cons]
          omega
        · have := ih (idx + 1) i h
          simp only [List.length_cons]
          omega
      · have := ih (idx + 1) i h
        simp only [List.length_cons]
        omega

theorem okIdxs_pairwise (q : QueryRequest → Response) (cfg : Config)
    (clock : Nat → DateTime) :
    ∀ (bs : List (List Student)) (idx : Nat),
      (okIdxs q cfg clock idx bs).Pairwise (· < ·) := by
  intro bs
  induction bs with
  | nil => intro idx; simp [okIdxs]
  | cons b rest ih =>
      intro idx
      simp only [okIdxs]
      split_ifs with hok
      · refine List.Pairwise.cons ?_ (ih (idx + 1))
        intro i hi
        have := okIdxs_mem_bounds q cfg clock rest (idx + 1) i hi
        omega
      · exact ih (idx + 1)

theorem okIdxs_all_ok (q : QueryRequest → Response) (cfg : Config)
    (clock : Nat → DateTime) :
    ∀ (bs : List (List Student)) (idx : Nat),
      AllOk q cfg clock idx bs →
      okIdxs q cfg clock idx bs = List.range' idx bs.length := by
  intro bs
  induction bs with
  | nil => intro idx _; simp [okIdxs]
  | cons b rest ih =>
      intro idx h
      obtain ⟨hok, htail⟩ := h
      simp only [okIdxs, if_pos hok, List.length_cons]
      rw [List.range'_succ, ih (idx + 1) htail]

theorem range'_getLast? :
    ∀ n s : Nat, 0 < n →
      (List.range' s n).getLast? = some (s + n - 1) := by
  intro n
  induction n with
  | zero => intro s h; simp at h
  | succ m ih =>
      intro s _
      cases m with
      | zero => simp [List.range']
      | succ mm =>
          rw [List.range'_succ, List.range'_succ, List.getLast?_cons_cons,
            ← List.range'_succ, ih (s + 1) (Nat.succ_pos mm)]
          congr 1
          omega

theorem diagsOf_mem (q : QueryRequest → Response) (cfg : Config)
    (clock : Nat → DateTime) :
    ∀ (bs : List (List Student)) (idx j : Nat) (hj : j < bs.length),
      (respAt q cfg clock (idx + j) bs[j]).status ≠ "OK" →
      mkDiag (respAt q cfg clock (idx + j) bs[j])
        ∈ diagsOf q cfg clock idx bs := by
  intro bs
  induction bs with
  | nil => intro idx j hj; simp at hj
  | cons b rest ih =>
      intro idx j hj hbad
      cases j with
      | zero =>
          simp only [List.getElem_cons_zero, Nat.add_zero] at hbad ⊢
          simp only [diagsOf, if_neg hbad]
          exact List.mem_cons_self _ _
      | succ jj =>
          have harith : idx + (jj + 1) = (idx + 1) + jj := by omega
          simp only [List.getElem_cons_succ, harith] at hbad ⊢
          have hjj : jj < rest.length := by
            simp only [List.length_cons] at hj
            omega
          have hmem := ih (idx + 1) jj hjj hbad
          simp only [diagsOf]
          split_ifs with hok
          · exact hmem
          · exact List.mem_cons_of_mem _ hmem

theorem requestsOf_length (cfg : Config) (clock : Nat → DateTime) :
    ∀ (bs : List (List Student)) (idx : Nat),
      (requestsOf cfg clock idx bs).length = bs.length := by
  intro bs
  induction bs with
  | nil => intro idx; rfl
  | cons b rest ih =>
      intro idx
      simp only [requestsOf, List.length_cons, ih (idx + 1)]

theorem requestsOf_departure_fixed (cfg : Config) (clock : Nat → DateTime)
    (h d : Nat) (hh : cfg.departure_hour = some h)
    (hd : cfg.departure_date = some d) :
    ∀ (bs : List (List Student)) (idx : Nat), ∀ r ∈ requestsOf cfg clock idx bs,
      r.departure_time
        = some (d * 86400 + h * 3600 + cfg.departure_minute * 60) := by
  intro bs
  induction bs with
  | nil => intro idx r hr; simp [requestsOf] at hr
  | cons b rest ih =>
      intro idx r hr
      simp only [requestsOf] at hr
      rcases List.mem_cons.mp hr with hr | hr
      · subst hr
        simp [mkRequest, hh, hd, get_departure_timestamp, DateTime.timestamp]
      · exact ih (idx + 1) r hr

theorem runLoop_requests (q : QueryRequest → Response) (cfg : Config)
    (clock : Nat → DateTime) (hasProgress : Bool) (total : Nat) :
    ∀ (bs : List (List Student)) (idx : Nat) (out : RunOutput),
      runLoop q cfg clock hasProgress total idx bs = .ok out →
      out.requests = requestsOf cfg clock idx bs := by
  intro bs
  induction bs with
  | nil =>
      intro idx out h
      simp only [runLoop] at h
      injection h with h
      rw [← h]
      rfl
  | cons b rest ih =>
      intro idx out h
      simp only [runLoop] at h
      by_cases hbad : (q (mkRequest cfg clock idx b)).status ≠ "OK"
      · rw [if_pos hbad] at h
        cases hrec : runLoop q cfg clock hasProgress total (idx + 1) rest with
        | error e => rw [hrec] at h; simp at h
        | ok o =>
            rw [hrec] at h
            simp only [Except.ok.injEq] at h
            rw [← h]
            simp only [requestsOf]
            rw [ih (idx + 1) o hrec]
      · rw [if_neg hbad] at h
        cases hrows : processRows (q (mkRequest cfg clock idx b)).rows b with
        | error e => rw [hrows] at h; simp at h
        | ok rows =>
            rw [hrows] at h
            cases hrec : runLoop q cfg clock hasProgress total (idx + 1) rest with
            | error e => rw [hrec] at h; simp at h
            | ok o =>
                rw [hrec] at h
                simp only [Except.ok.injEq] at h
                rw [← h]
                simp only [requestsOf]
                rw [ih (idx + 1) o hrec]

theorem makeBatches_length (l : List Student) :
    (makeBatches l).length = totalBatches l := by
  rw [makeBatches, chunks25_length]
  unfold totalBatches batch_size
  omega

/-- **C3**: for responses conforming to the Matrix Query contract (one
row per origin on an "OK" batch, each row carrying its element), the run
succeeds and the result table is never longer than the roster, with
equality exactly when every batch's top-level status is "OK". -/
theorem result_length_bound (q : QueryRequest → Response) (cfg : Config)
    (clock : Nat → DateTime) (hasProgress : Bool) (students : List Student)
    (hconf : Conformant q cfg clock 0 (makeBatches students)) :
    ∃ out, calculate_commute_times q students cfg clock hasProgress
        = .ok out ∧
      out.results.length ≤ students.length ∧
      (out.results.length = students.length ↔
        AllOk q cfg clock 0 (makeBatches students)) := by
  obtain ⟨out, hrun, hlen, -, -, -⟩ :=
    runLoop_ok q cfg clock hasProgress (totalBatches students)
      (makeBatches students) 0 hconf
  have hsum : ((makeBatches students).map List.length).sum
      = students.length := by
    rw [← List.length_flatten,
      show (makeBatches students).flatten = students from
        chunksSucc_flatten 24 students]
  refine ⟨out, hrun, ?_, ?_⟩
  · rw [hlen]
    calc okLenSum q cfg clock 0 (makeBatches students)
        ≤ ((makeBatches students).map List.length).sum :=
          okLenSum_le q cfg clock (makeBatches students) 0
      _ = students.length := hsum
  · rw [hlen, ← hsum]
    exact okLenSum_eq_iff q cfg clock (makeBatches students) 0
      (fun b hb => (chunksSucc_mem_length 24 students b hb).1)

/-- Witness for C3: a one-student roster with a fully "OK" capability
yields a full-length result. -/
theorem result_length_bound_witness :
    ∃ out, calculate_commute_times
        (fun _ => ⟨"OK", none, [⟨[⟨"OK", "1km", 1000, "17분", 1020⟩]⟩]⟩)
        [⟨"김철수", "주소1"⟩] ⟨"학교", "key", "transit", none, 0, none⟩
        (fun _ => ⟨0, 0, 0, 0, 0⟩) false = .ok out ∧
      out.results.length ≤ 1 ∧
      (out.results.length = 1 ↔
        AllOk (fun _ => ⟨"OK", none, [⟨[⟨"OK", "1km", 1000, "17분", 1020⟩]⟩]⟩)
          ⟨"학교", "key", "transit", none, 0, none⟩ (fun _ => ⟨0, 0, 0, 0, 0⟩)
          0 (makeBatches [⟨"김철수", "주소1"⟩])) :=
  result_length_bound
    (fun _ => ⟨"OK", none, [⟨[⟨"OK", "1km", 1000, "17분", 1020⟩]⟩]⟩)
    ⟨"학교", "key", "transit", none, 0, none⟩ (fun _ => ⟨0, 0, 0, 0, 0⟩)
    false [⟨"김철수", "주소1"⟩] ⟨fun _ => ⟨rfl, by decide⟩, trivial⟩

/-- C2 counterexample: with a progress bar supplied and a single batch
whose top-level status is not "OK", the `continue` on line 68 skips the
progress update, so the callback is never invoked (and the fraction
never reaches 1), refuting "called exactly once per batch regardless of
the batch's outcome". -/
theorem progress_skips_failed_batch_cex :
    (calculate_commute_times
          (fun _ => ⟨"OVER_QUERY_LIMIT", some "quota", []⟩)
          [⟨"김철수", "주소1"⟩] ⟨"학교", "key", "transit", none, 0, none⟩
          (fun _ => ⟨0, 0, 0, 0, 0⟩) true).map RunOutput.progress
      = .ok [] ∧
    totalBatches [⟨"김철수", "주소1"⟩] = 1 := by
  constructor
  · rfl
  · rfl

/-- **C2 amended** (the original claim fails — see
`progress_skips_failed_batch_cex`): the callback is invoked exactly once
per batch whose top-level status is "OK", and not at all for a failed
batch, with the fraction (batchIndex+1)/totalBatches; over the invoked
batches the fractions are strictly increasing and lie in (0, 1], and
they end at exactly 1 when every batch succeeded. -/
theorem progress_per_ok_batch (q : QueryRequest → Response) (cfg : Config)
    (clock : Nat → DateTime) (students : List Student)
    (hconf : Conformant q cfg clock 0 (makeBatches students)) :
    ∃ out, calculate_commute_times q students cfg clock true = .ok out ∧
      out.progress = (okIdxs q cfg clock 0 (makeBatches students)).map
        (fun i : Nat => ((i : ℚ) + 1) / ((totalBatches students : ℚ))) ∧
      out.progress.Pairwise (· < ·) ∧
      (∀ p ∈ out.progress, 0 < p ∧ p ≤ 1) ∧
      (AllOk q cfg clock 0 (makeBatches students) →
        out.progress.getLast?
          = if students = [] then none else some 1) := by
  obtain ⟨out, hrun, -, hprog, -, -⟩ :=
    runLoop_ok q cfg clock true (totalBatches students)
      (makeBatches students) 0 hconf
  rw [if_pos rfl] at hprog
  by_cases hs : students = []
  · subst hs
    have hempty : okIdxs q cfg clock 0 (makeBatches []) = [] := rfl
    rw [hempty] at hprog
    simp only [List.map_nil] at hprog
    exact ⟨out, hrun, by rw [hprog, hempty]; exact List.map_nil.symm,
      by simp [hprog], by simp [hprog], fun _ => by simp [hprog]⟩
  · have hlen0 : 0 < students.length := List.length_pos.mpr hs
    have hn : 0 < totalBatches students := by
      unfold totalBatches batch_size
      omega
    have hnQ : (0 : ℚ) < ((totalBatches students : ℚ)) := by
      exact_mod_cast hn
    have hnb : (makeBatches students).length = totalBatches students :=
      makeBatches_length students
    refine ⟨out, hrun, hprog, ?_, ?_, ?_⟩
    · rw [hprog]
      refine (okIdxs_pairwise q cfg clock (makeBatches students) 0).map _ ?_
      intro a b hab
      apply div_lt_div_of_pos_right ?_ hnQ
      exact_mod_cast Nat.succ_lt_succ hab
    · intro p hp
      rw [hprog] at hp
      obtain ⟨i, hi, rfl⟩ := List.mem_map.mp hp
      have hb := okIdxs_mem_bounds q cfg clock (makeBatches students) 0 i hi
      constructor
      · exact div_pos (by positivity) hnQ
      · rw [div_le_one hnQ]
        exact_mod_cast (by omega : i + 1 ≤ totalBatches students)
    · intro hall
      rw [if_neg hs, hprog,
        okIdxs_all_ok q cfg clock (makeBatches students) 0 hall,
        List.getLast?_map, hnb,
        range'_getLast? (totalBatches students) 0 hn]
      simp only [Nat.zero_add]
      have h1 : (((totalBatches students - 1 : Nat)) : ℚ) + 1
          = ((totalBatches students : ℚ)) := by
        rw [Nat.cast_sub (by omega : 1 ≤ totalBatches students)]
        ring
      have h2 : Option.map
            (fun i : Nat => ((i : ℚ) + 1) / ((totalBatches students : ℚ)))
            (some (totalBatches students - 1))
          = some (((((totalBatches students - 1 : Nat)) : ℚ) + 1)
              / ((totalBatches students : ℚ))) := rfl
      rw [h2, h1, div_self (ne_of_gt hnQ)]

/-- Witness for C2's amended theorem: the one-student all-"OK" run shows
a single callback at fraction 1. -/
theorem progress_per_ok_batch_witness :
    ∃ out, calculate_commute_times
        (fun _ => ⟨"OK", none, [⟨[⟨"OK", "1km", 1000, "17분", 1020⟩]⟩]⟩)
        [⟨"김철수", "주소1"⟩] ⟨"학교", "key", "transit", none, 0, none⟩
        (fun _ => ⟨0, 0, 0, 0, 0⟩) true = .ok out ∧
      out.progress = (okIdxs
          (fun _ => ⟨"OK", none, [⟨[⟨"OK", "1km", 1000, "17분", 1020⟩]⟩]⟩)
          ⟨"학교", "key", "transit", none, 0, none⟩ (fun _ => ⟨0, 0, 0, 0, 0⟩)
          0 (makeBatches [⟨"김철수", "주소1"⟩])).map
        (fun i : Nat => ((i : ℚ) + 1)
          / ((totalBatches [⟨"김철수", "주소1"⟩] : ℚ))) ∧
      out.progress.Pairwise (· < ·) ∧
      (∀ p ∈ out.progress, 0 < p ∧ p ≤ 1) ∧
      (AllOk (fun _ => ⟨"OK", none, [⟨[⟨"OK", "1km", 1000, "17분", 1020⟩]⟩]⟩)
          ⟨"학교", "key", "transit", none, 0, none⟩ (fun _ => ⟨0, 0, 0, 0, 0⟩)
          0 (makeBatches [⟨"김철수", "주소1"⟩]) →
        out.progress.getLast?
          = if ([⟨"김철수", "주소1"⟩] : List Student) = [] then none
            else some 1) :=
  progress_per_ok_batch
    (fun _ => ⟨"OK", none, [⟨[⟨"OK", "1km", 1000, "17분", 1020⟩]⟩]⟩)
    ⟨"학교", "key", "transit", none, 0, none⟩ (fun _ => ⟨0, 0, 0, 0, 0⟩)
    [⟨"김철수", "주소1"⟩] ⟨fun _ => ⟨rfl, by decide⟩, trivial⟩

/-- **C4**: a batch whose response's top-level status is not "OK"
contributes a diagnostic built from its status code and optional
message, contributes zero result rows for its students, and the loop
still submits one request per batch of the whole roster — the run
completes without aborting. -/
theorem batch_failure_skipped_run_continues (q : QueryRequest → Response)
    (cfg : Config) (clock : Nat → DateTime) (hasProgress : Bool)
    (students : List Student)
    (hconf : Conformant q cfg clock 0 (makeBatches students)) :
    ∃ out, calculate_commute_times q students cfg clock hasProgress
        = .ok out ∧
      out.diagnostics = diagsOf q cfg clock 0 (makeBatches students) ∧
      (∀ (j : Nat) (hj : j < (makeBatches students).length),
        (respAt q cfg clock j (makeBatches students)[j]).status ≠ "OK" →
        mkDiag (respAt q cfg clock j (makeBatches students)[j])
          ∈ out.diagnostics) ∧
      out.results.length = okLenSum q cfg clock 0 (makeBatches students) ∧
      out.requests.length = (makeBatches students).length := by
  obtain ⟨out, hrun, hlen, -, hdiag, hreq⟩ :=
    runLoop_ok q cfg clock hasProgress (totalBatches students)
      (makeBatches students) 0 hconf
  refine ⟨out, hrun, hdiag, ?_, hlen, ?_⟩
  · intro j hj hbad
    rw [hdiag]
    have h0 := diagsOf_mem q cfg clock (makeBatches students) 0 j hj
    simp only [Nat.zero_add] at h0
    exact h0 hbad
  · rw [hreq, requestsOf_length]

/-- Witness for C4: a one-student roster whose sole batch fails records
exactly its diagnostic, no rows, and one submitted request. -/
theorem batch_failure_skipped_run_continues_witness :
    ∃ out, calculate_commute_times
        (fun _ => ⟨"OVER_QUERY_LIMIT", some "quota", []⟩)
        [⟨"김철수", "주소1"⟩] ⟨"학교", "key", "transit", none, 0, none⟩
        (fun _ => ⟨0, 0, 0, 0, 0⟩) true = .ok out ∧
      out.diagnostics = diagsOf
        (fun _ => ⟨"OVER_QUERY_LIMIT", some "quota", []⟩)
        ⟨"학교", "key", "transit", none, 0, none⟩ (fun _ => ⟨0, 0, 0, 0, 0⟩)
        0 (makeBatches [⟨"김철수", "주소1"⟩]) ∧
      (∀ (j : Nat) (hj : j < (makeBatches [⟨"김철수", "주소1"⟩]).length),
        (respAt (fun _ => ⟨"OVER_QUERY_LIMIT", some "quota", []⟩)
            ⟨"학교", "key", "transit", none, 0, none⟩
            (fun _ => ⟨0, 0, 0, 0, 0⟩) j
            (makeBatches [⟨"김철수", "주소1"⟩])[j]).status ≠ "OK" →
        mkDiag (respAt (fun _ => ⟨"OVER_QUERY_LIMIT", some "quota", []⟩)
            ⟨"학교", "key", "transit", none, 0, none⟩
            (fun _ => ⟨0, 0, 0, 0, 0⟩) j
            (makeBatches [⟨"김철수", "주소1"⟩])[j]) ∈ out.diagnostics) ∧
      out.results.length = okLenSum
        (fun _ => ⟨"OVER_QUERY_LIMIT", some "quota", []⟩)
        ⟨"학교", "key", "transit", none, 0, none⟩ (fun _ => ⟨0, 0, 0, 0, 0⟩)
        0 (makeBatches [⟨"김철수", "주소1"⟩]) ∧
      out.requests.length = (makeBatches [⟨"김철수", "주소1"⟩]).length :=
  batch_failure_skipped_run_continues
    (fun _ => ⟨"OVER_QUERY_LIMIT", some "quota", []⟩)
    ⟨"학교", "key", "transit", none, 0, none⟩ (fun _ => ⟨0, 0, 0, 0, 0⟩)
    true [⟨"김철수", "주소1"⟩] ⟨fun h => absurd h (by decide), trivial⟩

/-- C1 counterexample: `get_departure_timestamp` is called inside the
batch loop (lines 58-61 of the source sit inside the `for` of line 46),
so with no date given, a 26-student roster (two batches) and a wall
clock that crosses 08:00 between the two batches, the two query
requests carry two different departure timestamps — the departure time
is not resolved once for the whole run nor reused across batches. -/
theorem departure_resolved_per_batch_cex :
    (calculate_commute_times (fun _ => ⟨"REQUEST_DENIED", none, []⟩)
          (List.replicate 26 ⟨"김철수", "주소1"⟩)
          ⟨"학교", "key", "transit", some 8, 0, none⟩
          (fun i => if i = 0 then ⟨0, 7, 0, 0, 0⟩ else ⟨0, 9, 0, 0, 0⟩)
          false).map (fun o => o.requests.map QueryRequest.departure_time)
      = .ok [some 28800, some 115200] := by
  rfl

/-- **C1 amended** (the original claim fails — see
`departure_resolved_per_batch_cex`): the orchestrator resolves the
departure timestamp once per batch, inside the batch loop, submitting
one request per batch; when the departure specification carries a
calendar date the resolution is pure, so every batch's request does
carry the same resolved value. -/
theorem departure_same_when_date_given (q : QueryRequest → Response)
    (cfg : Config) (clock : Nat → DateTime) (hasProgress : Bool)
    (students : List Student) (out : RunOutput) (h d : Nat)
    (hrun : calculate_commute_times q students cfg clock hasProgress
      = .ok out)
    (hh : cfg.departure_hour = some h)
    (hd : cfg.departure_date = some d) :
    out.requests.length = (makeBatches students).length ∧
    ∀ r ∈ out.requests,
      r.departure_time
        = some (d * 86400 + h * 3600 + cfg.departure_minute * 60) := by
  have hreq := runLoop_requests q cfg clock hasProgress
    (totalBatches students) (makeBatches students) 0 out hrun
  constructor
  · rw [hreq, requestsOf_length]
  · intro r hr
    rw [hreq] at hr
    exact requestsOf_departure_fixed cfg clock h d hh hd
      (makeBatches students) 0 r hr

/-- Witness for C1's amended theorem: a dated one-batch run submits one
request carrying exactly the date's timestamp. -/
theorem departure_same_when_date_given_witness :
    ((⟨[], [], ["API 오류: REQUEST_DENIED - "],
        [⟨"주소1", "학교", "transit", "ko", "key",
          some (DateTime.timestamp ⟨19724, 8, 0, 0, 0⟩)⟩]⟩ :
        RunOutput)).requests.length
      = (makeBatches [⟨"김철수", "주소1"⟩]).length ∧
    ∀ r ∈ ((⟨[], [], ["API 오류: REQUEST_DENIED - "],
        [⟨"주소1", "학교", "transit", "ko", "key",
          some (DateTime.timestamp ⟨19724, 8, 0, 0, 0⟩)⟩]⟩ :
        RunOutput)).requests,
      r.departure_time = some (19724 * 86400 + 8 * 3600 + 0 * 60) :=
  departure_same_when_date_given (fun _ => ⟨"REQUEST_DENIED", none, []⟩)
    ⟨"학교", "key", "transit", some 8, 0, some 19724⟩
    (fun _ => ⟨0, 0, 0, 0, 0⟩) false [⟨"김철수", "주소1"⟩]
    ⟨[], [], ["API 오류: REQUEST_DENIED - "],
      [⟨"주소1", "학교", "transit", "ko", "key",
        some (DateTime.timestamp ⟨19724, 8, 0, 0, 0⟩)⟩]⟩
    8 19724 rfl rfl rfl

/-- C9 counterexample: the capability in the embedding is a pure
function of the request (deterministic), yet with a departure hour and
no date the resolved timestamp depends on the wall clock read during
the run, so two invocations with identical students, destination, mode
and departure specification — at 07:00 and at 09:00 — receive different
responses and produce different result tables. -/
theorem idempotence_clock_cex :
    (calculate_commute_times
          (fun req => ⟨"OK", none,
            [⟨[⟨"OK", "", Int.ofNat (req.departure_time.getD 0), "",
              0⟩]⟩]⟩)
          [⟨"김철수", "주소1"⟩] ⟨"학교", "key", "transit", some 8, 0, none⟩
          (fun _ => ⟨0, 7, 0, 0, 0⟩) false).map RunOutput.results
      = .ok [⟨"김철수", "주소1", "", some 28800, "", some 0⟩] ∧
    (calculate_commute_times
          (fun req => ⟨"OK", none,
            [⟨[⟨"OK", "", Int.ofNat (req.departure_time.getD 0), "",
              0⟩]⟩]⟩)
          [⟨"김철수", "주소1"⟩] ⟨"학교", "key", "transit", some 8, 0, none⟩
          (fun _ => ⟨0, 9, 0, 0, 0⟩) false).map RunOutput.results
      = .ok [⟨"김철수", "주소1", "", some 115200, "", some 0⟩] ∧
    (⟨"김철수", "주소1", "", some 28800, "", some 0⟩ : ResultRow)
      ≠ ⟨"김철수", "주소1", "", some 115200, "", some 0⟩ := by
  exact ⟨rfl, rfl, by decide⟩

/-- **C9 amended** (the original claim fails when the departure
specification has an hour but no date — see `idempotence_clock_cex`):
the capability is a pure function of the request in this embedding
(deterministic by construction), and whenever the departure
specification is absent or carries a calendar date the run is
independent of the wall clock, so two invocations with identical
students, destination, mode and departure specification produce
identical outputs — in particular identical result tables. -/
theorem idempotent_modulo_clock (q : QueryRequest → Response)
    (cfg : Config) (students : List Student) (hasProgress : Bool)
    (clock1 clock2 : Nat → DateTime)
    (h : cfg.departure_hour = none ∨ ∃ d, cfg.departure_date = some d) :
    calculate_commute_times q students cfg clock1 hasProgress
      = calculate_commute_times q students cfg clock2 hasProgress := by
  have hreq : ∀ (idx : Nat) (b : List Student),
      mkRequest cfg clock1 idx b = mkRequest cfg clock2 idx b := by
    intro idx b
    rcases h with h | ⟨d, hd⟩
    · simp [mkRequest, h]
    · cases hh : cfg.departure_hour with
      | none => simp [mkRequest, hh]
      | some hr => simp [mkRequest, hh, hd, get_departure_timestamp]
  suffices H : ∀ (bs : List (List Student)) (idx : Nat),
      runLoop q cfg clock1 hasProgress (totalBatches students) idx bs
        = runLoop q cfg clock2 hasProgress (totalBatches students) idx bs by
    exact H (makeBatches students) 0
  intro bs
  induction bs with
  | nil => intro idx; rfl
  | cons b rest ih =>
      intro idx
      simp only [runLoop, hreq idx b, ih (idx + 1)]

/-- Witness for C9's amended theorem: with no departure specification,
runs observed at 07:00 and at 09:00 coincide. -/
theorem idempotent_modulo_clock_witness :
    calculate_commute_times
        (fun _ => ⟨"OK", none, [⟨[⟨"OK", "1km", 1000, "17분", 1020⟩]⟩]⟩)
        [⟨"김철수", "주소1"⟩] ⟨"학교", "key", "transit", none, 0, none⟩
        (fun _ => ⟨0, 7, 0, 0, 0⟩) false
      = calculate_commute_times
        (fun _ => ⟨"OK", none, [⟨[⟨"OK", "1km", 1000, "17분", 1020⟩]⟩]⟩)
        [⟨"김철수", "주소1"⟩] ⟨"학교", "key", "transit", none, 0, none⟩
        (fun _ => ⟨0, 9, 0, 0, 0⟩) false :=
  idempotent_modulo_clock
    (fun _ => ⟨"OK", none, [⟨[⟨"OK", "1km", 1000, "17분", 1020⟩]⟩]⟩)
    ⟨"학교", "key", "transit", none, 0, none⟩ [⟨"김철수", "주소1"⟩] false
    (fun _ => ⟨0, 7, 0, 0, 0⟩) (fun _ => ⟨0, 9, 0, 0, 0⟩) (Or.inl rfl)
